import Mathlib

/-!
Verification of the lacc preprocessing core.

Shallow embedding of the preprocessor driver in `src/preprocessor/preprocess.c`
and of the diagnostic sinks in `src/context.c`.

Modelling conventions:

* A token mirrors `struct token`: a kind tag, the interned-string payload
  `d.string`, the `leading_whitespace` count and the two expansion flags.
  The typed numeric payload of `NUMBER` tokens is not needed by any theorem
  here and is not modelled.
* `get_token` reads from the current logical line, returning `NEWLINE` at each
  end of line and `END` once `getprepline` is exhausted.  At the level of the
  token-stream functions (`read_macro_invocation`, `skip_or_get_token`) the
  input is a `List Token` spanning the remaining logical lines, with `NEWLINE`
  separators; the empty list stands for end of input, where `get_token`
  returns `END` forever.
* The per-line work done by `read_complete_line`, `preprocess_directive` and
  `expand` lives in `directive.c` / `macro.c`, outside the given sources, and
  never inspects the lookahead buffer or the requested count `n`.  For the
  driver-level functions (`preprocess_line`, `next`, `peekn`, `consume`,
  `inject_line`) the input is therefore abstracted as the sequence of
  finished line arrays, one `List Token` per consumed source line (a directive
  line contributes `[]`); `preprocess_line` performs exactly what the source
  does with such an array: filter `NEWLINE` (unless in `-E` mode) and push
  each token through `add_to_lookahead`.
* The global `output_preprocessed` flag is passed as the `op : Bool`
  parameter.
-/

/-- Token kinds, following `enum token_type`.  Punctuators that play a role in
the driver get their own tag; all remaining kinds are folded into `OTHER`. -/
inductive TokKind where
  | LPAREN
  | RPAREN
  | HASH
  | COMMA
  | IF
  | ELSE
  | IDENTIFIER
  | NUMBER
  | STRING
  | PREP_NUMBER
  | PREP_STRING
  | PREP_CHAR
  | NEWLINE
  | END
  | PARAM
  | OTHER (code : Nat)
deriving DecidableEq, Repr

/-- `struct token`: kind, string payload, leading whitespace, expansion flags. -/
structure Token where
  token : TokKind
  string : String := ""
  leading_whitespace : Nat := 0
  is_expandable : Bool := false
  disable_expand : Bool := false
deriving DecidableEq, Repr

/-- `basic_token[END]`. -/
def endToken : Token := { token := TokKind.END }

/-- `basic_token[NEWLINE]`. -/
def newlineToken : Token := { token := TokKind.NEWLINE, string := "\n" }

/-- Modelled from the spec (section 4.7): escape-sequence decoding used by the
literal converter, which lives outside the given sources.  Backslash followed
by a letter decodes to the corresponding control character (`n`, `t`) or to
the character itself. -/
def decode_escape_seqs : List Char → List Char
  | [] => []
  | '\\' :: 'n' :: rest => '\n' :: decode_escape_seqs rest
  | '\\' :: 't' :: rest => '\t' :: decode_escape_seqs rest
  | '\\' :: c :: rest => c :: decode_escape_seqs rest
  | c :: rest => c :: decode_escape_seqs rest

/-- Modelled from the spec (section 4.7): `convert_preprocessing_char` turns a
`PREP_CHAR` token into a typed `NUMBER` token holding the code point.  Only
the kind change matters to the claims; the numeric value is not modelled. -/
def convert_preprocessing_char (t : Token) : Token :=
  { t with token := TokKind.NUMBER }

/-- Modelled from the spec (section 4.7): `convert_preprocessing_number` turns
a `PREP_NUMBER` token into a typed `NUMBER` token. -/
def convert_preprocessing_number (t : Token) : Token :=
  { t with token := TokKind.NUMBER }

/-- Modelled from the spec (section 4.7): `convert_preprocessing_string` turns
a `PREP_STRING` token into a `STRING` token whose payload has its escape
sequences decoded. -/
def convert_preprocessing_string (t : Token) : Token :=
  { t with token := TokKind.STRING,
           string := String.mk (decode_escape_seqs t.string.toList) }

/-- Driver state: the abstracted remaining input (one finished line array per
source line still to be consumed; `[]` once `getprepline` is exhausted) and
the lookahead deque, front at the head of the list. -/
structure PPState where
  pending : List (List Token)
  lookahead : List Token
deriving DecidableEq, Repr

/-- The `case STRING` fall-through inside `add_to_lookahead`: if the deque is
nonempty and its back is a `STRING`, replace the back by the incoming token
carrying the concatenated payload (`str_cat`); otherwise push. -/
def joinStrings (buf : List Token) (t : Token) : List Token :=
  match buf.getLast? with
  | some prev =>
    if prev.token = TokKind.STRING then
      buf.dropLast ++ [{ t with string := prev.string ++ t.string }]
    else
      buf ++ [t]
  | none => buf ++ [t]

/-- `add_to_lookahead`: in non-`-E` mode convert `PREP_CHAR` and `PREP_NUMBER`
to `NUMBER`, convert `PREP_STRING` to `STRING` falling through into the
`STRING` case, which joins with an adjacent string at the back of the deque;
all other kinds (and everything in `-E` mode) are pushed unchanged. -/
def add_to_lookahead (op : Bool) (buf : List Token) (t : Token) : List Token :=
  if op = false then
    match t.token with
    | TokKind.PREP_CHAR => buf ++ [convert_preprocessing_char t]
    | TokKind.PREP_NUMBER => buf ++ [convert_preprocessing_number t]
    | TokKind.PREP_STRING => joinStrings buf (convert_preprocessing_string t)
    | TokKind.STRING => joinStrings buf t
    | _ => buf ++ [t]
  else
    buf ++ [t]

/-- `is_lookahead_ready(n)`: false while fewer than `n` tokens are buffered,
and, outside `-E` mode, false while the back of the buffer is a `STRING`
(which may still need to be joined with an upcoming string literal). -/
def is_lookahead_ready (op : Bool) (buf : List Token) (n : Nat) : Bool :=
  if buf.length < n then
    false
  else if 0 < buf.length ∧ op = false then
    decide ((buf.getLastD endToken).token ≠ TokKind.STRING)
  else
    true

/-- The emission loop at the end of `preprocess_line`: walk one finished line
array and hand each token to `add_to_lookahead`, skipping `NEWLINE` tokens
unless in `-E` mode. -/
def emit_line (op : Bool) (buf : List Token) : List Token → List Token
  | [] => buf
  | t :: l =>
    if t.token ≠ TokKind.NEWLINE ∨ op = true then
      emit_line op (add_to_lookahead op buf t) l
    else
      emit_line op buf l

/-- The do-while loop of `preprocess_line`: consume at least one source line,
emitting its finished array into the lookahead buffer, until the buffer is
ready for `n` tokens or the input is exhausted (`get_token` returned `END`,
i.e. `pending = []`). -/
def preprocess_loop (op : Bool) (n : Nat) :
    List (List Token) → List Token → List (List Token) × List Token
  | [], buf => ([], buf)
  | l :: rest, buf =>
    let buf' := emit_line op buf l
    if is_lookahead_ready op buf' n then
      (rest, buf')
    else
      preprocess_loop op n rest buf'

/-- One iteration of the final padding loop of `preprocess_line` appends one
`END` token (an `END` token is never converted nor joined).  The loop runs
while the buffer holds fewer than `n` tokens, so it performs exactly
`n - buf.length` iterations; `gas` carries that count to make the recursion
structural. -/
def pad_go (op : Bool) (n : Nat) : Nat → List Token → List Token
  | 0, buf => buf
  | gas + 1, buf =>
    if buf.length < n then
      pad_go op n gas (add_to_lookahead op buf endToken)
    else
      buf

/-- The `while (deque_len(&lookahead) < n) add_to_lookahead(basic_token[END])`
padding loop at the end of `preprocess_line`. -/
def pad_with_end (op : Bool) (n : Nat) (buf : List Token) : List Token :=
  pad_go op n (n - buf.length) buf

/-- `preprocess_line(n)`: run the consume loop, then pad with `END` tokens up
to `n`. -/
def preprocess_line (op : Bool) (st : PPState) (n : Nat) : PPState :=
  let r := preprocess_loop op n st.pending st.lookahead
  { pending := r.1, lookahead := pad_with_end op n r.2 }

/-- `next()`: fill the buffer if empty, then pop the front token. -/
def nextTok (op : Bool) (st : PPState) : Token × PPState :=
  let st' := if st.lookahead.length < 1 then preprocess_line op st 1 else st
  (st'.lookahead.headD endToken,
   { pending := st'.pending, lookahead := st'.lookahead.tail })

/-- `peekn(n)`: ensure at least `n` tokens are buffered, return the `n`-th
without removing it. -/
def peeknTok (op : Bool) (n : Nat) (st : PPState) : Token × PPState :=
  let st' := if st.lookahead.length < n then preprocess_line op st n else st
  (st'.lookahead.getD (n - 1) endToken, st')

/-- `peek()` is `peekn(1)`. -/
def peekTok (op : Bool) (st : PPState) : Token × PPState :=
  peeknTok op 1 st

/-- The spelling table `basic_token[type].d.string` (defined in `tokenize.c`,
outside the given sources), restricted to the kinds modelled here. -/
def basic_spelling : TokKind → String
  | TokKind.LPAREN => "("
  | TokKind.RPAREN => ")"
  | TokKind.COMMA => ","
  | TokKind.HASH => "#"
  | TokKind.NEWLINE => "\n"
  | _ => ""

/-- The `switch (type)` of `consume` that picks the human-readable name of the
expected kind for the diagnostic. -/
def expected_str : TokKind → String
  | TokKind.IDENTIFIER => "identifier"
  | TokKind.NUMBER => "number"
  | TokKind.STRING => "string"
  | ty => basic_spelling ty

/-- `consume(type)`: pop via `next()`.  On a kind mismatch the source only
reports and exits when the popped token is a `NUMBER`; the third component is
`some msg` exactly when `error(...)` followed by `exit(1)` runs. -/
def consume (op : Bool) (st : PPState) (ty : TokKind) :
    Token × PPState × Option String :=
  let r := nextTok op st
  if r.1.token = ty then
    (r.1, r.2, none)
  else if r.1.token = TokKind.NUMBER then
    (r.1, r.2, some ("Unexpected number, expected " ++ expected_str ty ++ "."))
  else
    (r.1, r.2, none)

/-- The pop-from-the-back loop of `inject_line`:
`while (deque_len(&lookahead) && deque_back(&lookahead).token == END) pop_back`.
Written via `reverse`/`dropWhile`, which performs the same removal of the
maximal run of trailing `END` tokens. -/
def dropTrailingEnds (buf : List Token) : List Token :=
  (buf.reverse.dropWhile (fun t => decide (t.token = TokKind.END))).reverse

/-- `inject_line(text)`: make the injected text the next logical line (it is
tokenized and processed exactly like a read line, so it contributes its
finished line array `l` as the next pending element), run
`preprocess_line(0)`, then pop all trailing `END` tokens.  The final
`line_buffer = NULL` of the source corresponds to the injected element having
been consumed from `pending`. -/
def inject_line (op : Bool) (st : PPState) (l : List Token) : PPState :=
  let st' := preprocess_line op { pending := l :: st.pending, lookahead := st.lookahead } 0
  { pending := st'.pending, lookahead := dropTrailingEnds st'.lookahead }

/-! Token-stream level functions for macro-invocation collection. -/

/-- Nesting-depth update of the `while (nesting)` loop of
`read_macro_invocation`: `(` increments, `)` decrements. -/
def nest_step (n : Nat) (t : Token) : Nat :=
  if t.token = TokKind.LPAREN then n + 1
  else if t.token = TokKind.RPAREN then n - 1
  else n

/-- The `while (nesting)` loop of `read_macro_invocation`: pull tokens,
tracking parenthesis depth, skipping `NEWLINE` tokens (`continue`) and pushing
everything else onto the working line.  Exhausting the input before the depth
returns to zero is the `assert(t.token != END)` / unbalanced-invocation error
path, modelled as `none`. -/
def read_invocation_loop (nesting : Nat) (line : List Token) :
    List Token → Option (List Token × List Token)
  | [] => if nesting = 0 then some (line, []) else none
  | t :: rest =>
    if nesting = 0 then
      some (line, t :: rest)
    else
      let n2 := nest_step nesting t
      if t.token = TokKind.NEWLINE then
        read_invocation_loop n2 line rest
      else
        read_invocation_loop n2 (line ++ [t]) rest

/-- `read_macro_invocation`: pull one token and push it; if it is not `(` the
macro is not treated as an invocation and collection stops there; otherwise
collect with nesting depth starting at 1.  An empty input means `get_token`
returns `END`, which is pushed and, not being `(`, ends collection. -/
def read_macro_invocation (input line : List Token) :
    Option (List Token × List Token) :=
  match input with
  | [] => some (line ++ [endToken], [])
  | t :: rest =>
    if t.token = TokKind.LPAREN then
      read_invocation_loop 1 (line ++ [t]) rest
    else
      some (line ++ [t], rest)

/-- Parenthesis depth after a token sequence, starting from `n`. -/
def nestAfter (n : Nat) : List Token → Nat
  | [] => n
  | t :: r => nestAfter (nest_step n t) r

/-- Length of the shortest prefix of the input after which the nesting depth,
started at `d`, has returned to zero; `none` when it never does. -/
def firstBalancedLen (d : Nat) : List Token → Option Nat
  | [] => if d = 0 then some 0 else none
  | t :: r =>
    if d = 0 then some 0
    else (firstBalancedLen (nest_step d t) r).map (· + 1)

/-- State of the expansion refill path: the working line array and the
remaining token stream feeding `get_token`. -/
structure ExpandState where
  line : List Token
  input : List Token
deriving DecidableEq, Repr

/-- The `do { t = get_token(); } while (t.token == NEWLINE)` pull inside
`skip_or_get_token`: skip `NEWLINE` tokens and deliver the first other token,
or `END` if the input is exhausted. -/
def pull_non_newline (input : List Token) : Token × List Token :=
  match input.dropWhile (fun t => decide (t.token = TokKind.NEWLINE)) with
  | [] => (endToken, [])
  | t :: rest => (t, rest)

/-- `skip_or_get_token(line, i)`: if `i` addresses the last element and that
element is a `NEWLINE`, pop it (overwriting the trailing newline); then either
return the existing token at `i`, or, at the end of the array, pull the next
non-`NEWLINE` token from the input and push it. -/
def skip_or_get_token (st : ExpandState) (i : Nat) : Token × ExpandState :=
  let line :=
    if i + 1 = st.line.length ∧ (st.line.getD i endToken).token = TokKind.NEWLINE then
      st.line.dropLast
    else
      st.line
  if i = line.length then
    let r := pull_non_newline st.input
    (r.1, { line := line ++ [r.1], input := r.2 })
  else
    (line.getD i endToken, { line := line, input := st.input })

/-! Diagnostics (`src/context.c`). -/

/-- The fields of `struct context` and the input-reader globals
(`current_file_path`, `current_file_line`) that the diagnostic sinks read. -/
structure Ctx where
  suppress_warning : Bool
  errors : Nat
  file : String := ""
  line : Nat := 0
deriving DecidableEq, Repr

/-- `warning(...)` from `context.c`: prints nothing at all when
`context.suppress_warning` is set, for every caller; the emitted text is
modelled as the formatted line written to stderr. -/
def warning (c : Ctx) (msg : String) : Ctx × Option String :=
  if c.suppress_warning then
    (c, none)
  else
    (c, some ("(" ++ c.file ++ ", " ++ toString c.line ++ ") warning: " ++ msg))

/-- `error(...)` from `context.c`: unconditionally increments
`context.errors` and prints the formatted line. -/
def error (c : Ctx) (msg : String) : Ctx × String :=
  ({ c with errors := c.errors + 1 },
   "(" ++ c.file ++ ", " ++ toString c.line ++ ") error: " ++ msg)

/-! The `-E` output loop (`preprocess(FILE *output)`). -/

/-- A single-quote character as a string (used around character constants). -/
def squote : String := String.mk [Char.ofNat 39]

/-- The spaces printed for `leading_whitespace` (`fprintf("%*s", n, " ")`
guarded by `if (t.leading_whitespace)`, i.e. `n` spaces). -/
def stringify_spaces (n : Nat) : String := String.mk (List.replicate n ' ')

/-- The text `preprocess` writes for one token: the leading whitespace, then
the switch over the kind.  `NUMBER` is `assert(0)` in the source — with
assertions compiled out the `break` prints no spelling, modelled as the empty
string.  Strings and character constants are surrounded by their quotes; every
other kind prints its raw spelling. -/
def emitTokenText (t : Token) : String :=
  stringify_spaces t.leading_whitespace ++
    match t.token with
    | TokKind.NUMBER => ""
    | TokKind.PREP_STRING => "\"" ++ t.string ++ "\""
    | TokKind.STRING => "\"" ++ t.string ++ "\""
    | TokKind.PREP_CHAR => squote ++ t.string ++ squote
    | _ => t.string

/-- Modelled from the spec (section 6, output side `-E` mode): each token is
emitted preceded by `leading_whitespace` spaces; strings with surrounding
double quotes and their original escapes; character constants with single
quotes; any other token by its spelling. -/
def emittedForm (t : Token) : String :=
  stringify_spaces t.leading_whitespace ++
    (if t.token = TokKind.PREP_STRING ∨ t.token = TokKind.STRING then
       "\"" ++ t.string ++ "\""
     else if t.token = TokKind.PREP_CHAR then
       squote ++ t.string ++ squote
     else
       t.string)

/-- The `while ((t = next()).token != END)` loop of `preprocess`, with
`output_preprocessed = 1`; `fuel` bounds the number of `next()` calls. -/
def preprocess_output : Nat → PPState → String
  | 0, _ => ""
  | fuel + 1, st =>
    let r := nextTok true st
    if r.1.token = TokKind.END then ""
    else emitTokenText r.1 ++ preprocess_output fuel r.2

/-- String concatenation of a list of chunks, as successive `fprintf` calls
produce them. -/
def concatAll : List String → String
  | [] => ""
  | s :: rest => s ++ concatAll rest

/-! Observation machinery for the driver theorems. -/

/-- Folding a sequence of finished line arrays into the buffer. -/
def foldLines (op : Bool) (buf : List Token) : List (List Token) → List Token
  | [] => buf
  | l :: ls => foldLines op (emit_line op buf l) ls

/-- The buffer contents after all remaining input has been emitted. -/
def fullBuf (op : Bool) (st : PPState) : List Token :=
  foldLines op st.lookahead st.pending

/-- The `k`-th token the parser will observe from state `st` (after the real
tokens are exhausted, `next()` yields `END` forever, matching the padding). -/
def stream (op : Bool) (st : PPState) (k : Nat) : Token :=
  (fullBuf op st).getD k endToken

/-- The back of the buffer is settled: either `-E` mode (no joining), or the
input is exhausted, or the last buffered token is not a `STRING`.  This is the
state `preprocess_line` always leaves behind, and it guarantees the buffered
tokens are final. -/
def stableState (op : Bool) (st : PPState) : Prop :=
  op = true ∨ st.pending = [] ∨
    (st.lookahead.getLastD endToken).token ≠ TokKind.STRING

/-- Every buffered token agrees with the observation stream. -/
def alignedState (op : Bool) (st : PPState) : Prop :=
  ∀ k, k < st.lookahead.length → st.lookahead.getD k endToken = stream op st k

def goodState (op : Bool) (st : PPState) : Prop :=
  stableState op st ∧ alignedState op st

/-- An interaction step of the parser with the driver. -/
inductive DriverOp where
  | nextD
  | peekD (n : Nat)
deriving DecidableEq, Repr

/-- Number of `next()` calls in an interaction sequence. -/
def countNext : List DriverOp → Nat
  | [] => 0
  | DriverOp.nextD :: ops => countNext ops + 1
  | DriverOp.peekD _ :: ops => countNext ops

/-- Run an interaction sequence, collecting the tokens returned by the
`next()` calls (the tokens actually delivered to the parser). -/
def runNextResults (op : Bool) : List DriverOp → PPState → List Token
  | [], _ => []
  | DriverOp.nextD :: ops, st =>
    let r := nextTok op st
    r.1 :: runNextResults op ops r.2
  | DriverOp.peekD n :: ops, st =>
    runNextResults op ops (peeknTok op n st).2

/-- A token kind the parser is allowed to see (claim C1). -/
def cleanKind (k : TokKind) : Prop :=
  k ≠ TokKind.NEWLINE ∧ k ≠ TokKind.PREP_NUMBER ∧
    k ≠ TokKind.PREP_STRING ∧ k ≠ TokKind.PREP_CHAR

/-- Every token of the buffer has a parser-legal kind. -/
def cleanBuf (buf : List Token) : Prop :=
  ∀ t ∈ buf, cleanKind t.token

/-- Two adjacent `STRING` tokens somewhere in the list. -/
def has_adjacent_strings : List Token → Bool
  | a :: b :: rest =>
    (decide (a.token = TokKind.STRING) && decide (b.token = TokKind.STRING)) ||
      has_adjacent_strings (b :: rest)
  | _ => false

/-! Concrete tokens used by the witnesses. -/

def tIdent : Token := { token := TokKind.IDENTIFIER, string := "x", is_expandable := true }

def tIdent2 : Token := { token := TokKind.IDENTIFIER, string := "y", is_expandable := true }

def tPrepNum : Token := { token := TokKind.PREP_NUMBER, string := "1" }

def tPrepNum2 : Token := { token := TokKind.PREP_NUMBER, string := "2" }

def tHexNum : Token := { token := TokKind.PREP_NUMBER, string := "0x1f", leading_whitespace := 0 }

def tStr1 : Token := { token := TokKind.STRING, string := "ab", leading_whitespace := 1 }

def tStr2 : Token := { token := TokKind.STRING, string := "cd", leading_whitespace := 1 }

def tLparen : Token := { token := TokKind.LPAREN, string := "(" }

def tRparen : Token := { token := TokKind.RPAREN, string := ")" }

def tComma : Token := { token := TokKind.COMMA, string := "," }

/-! ### Basic facts about `add_to_lookahead` -/

theorem joinStrings_ne_nil (buf : List Token) (t : Token) : joinStrings buf t ≠ [] := by
  unfold joinStrings
  rcases h : buf.getLast? with _ | prev
  · simp
  · simp only []
    split <;> simp

theorem add_ne_nil (op : Bool) (buf : List Token) (t : Token) :
    add_to_lookahead op buf t ≠ [] := by
  unfold add_to_lookahead
  rcases hop : op
  · simp only [Bool.false_eq_true]
    rcases ht : t.token <;> simp [joinStrings_ne_nil]
  · simp

theorem add_length_ge (op : Bool) (buf : List Token) (t : Token) :
    buf.length ≤ (add_to_lookahead op buf t).length := by
  unfold add_to_lookahead
  rcases hop : op
  · simp only [Bool.false_eq_true]
    rcases ht : t.token <;>
      simp_all [joinStrings] <;>
      rcases h : buf.getLast? with _ | prev <;>
      simp_all <;>
      split <;>
      simp [List.length_dropLast] <;>
      · have : buf ≠ [] := by rintro rfl; simp at h
        have : 0 < buf.length := List.length_pos.mpr this
        omega
  · simp

theorem add_end (op : Bool) (buf : List Token) :
    add_to_lookahead op buf endToken = buf ++ [endToken] := by
  unfold add_to_lookahead
  rcases hop : op <;> simp [endToken]

/-- `add_to_lookahead` never touches anything but the back of the buffer: it
commutes with a fixed head, provided the head cannot itself be the join
target (which requires the rest to be empty and the head to be a `STRING`). -/
theorem add_cons (op : Bool) (h : Token) (c : List Token) (t : Token)
    (hc : op = true ∨ (c = [] → h.token ≠ TokKind.STRING)) :
    add_to_lookahead op (h :: c) t = h :: add_to_lookahead op c t := by
  rcases hop : op
  · have hc' : c = [] → h.token ≠ TokKind.STRING := by
      rcases hc with hc | hc
      · rw [hop] at hc; simp at hc
      · exact hc
    have hjoin : ∀ x : Token, joinStrings (h :: c) x = h :: joinStrings c x := by
      intro x
      unfold joinStrings
      rcases c with _ | ⟨c0, c1⟩
      · simp [hc' rfl]
      · rw [List.getLast?_cons_cons]
        rcases hl : (c0 :: c1).getLast? with _ | prev
        · simp at hl
        · simp only [hl]
          by_cases hp : prev.token = TokKind.STRING
          · simp [hp, List.dropLast_cons₂]
          · simp [hp]
    unfold add_to_lookahead
    rcases ht : t.token <;> simp [ht, hjoin]
  · unfold add_to_lookahead
    simp

theorem emit_line_ne_nil (op : Bool) (buf : List Token) (l : List Token)
    (hb : buf ≠ []) : emit_line op buf l ≠ [] := by
  induction l generalizing buf with
  | nil => exact hb
  | cons t l ih =>
    unfold emit_line
    split
    · exact ih _ (add_ne_nil op buf t)
    · exact ih _ hb

theorem emit_line_cons (op : Bool) (h : Token) (c : List Token) (l : List Token)
    (hc : op = true ∨ (c = [] → h.token ≠ TokKind.STRING)) :
    emit_line op (h :: c) l = h :: emit_line op c l := by
  induction l generalizing c with
  | nil => rfl
  | cons t l ih =>
    unfold emit_line
    split
    · rw [add_cons op h c t hc]
      refine ih _ ?_
      rcases hc with hc | _
      · exact Or.inl hc
      · exact Or.inr (fun he => absurd he (add_ne_nil op c t))
    · exact ih _ hc

theorem foldLines_cons (op : Bool) (h : Token) (c : List Token)
    (ls : List (List Token))
    (hc : op = true ∨ (c = [] → h.token ≠ TokKind.STRING)) :
    foldLines op (h :: c) ls = h :: foldLines op c ls := by
  induction ls generalizing c with
  | nil => rfl
  | cons l ls ih =>
    show foldLines op (emit_line op (h :: c) l) ls
        = h :: foldLines op (emit_line op c l) ls
    rw [emit_line_cons op h c l hc]
    refine ih _ ?_
    rcases hc with hc | hc
    · exact Or.inl hc
    · refine Or.inr (fun he => ?_)
      by_cases hcnil : c = []
      · exact hc hcnil
      · exact absurd he (emit_line_ne_nil op c l hcnil)

theorem getLastD_cons_of_ne_nil (h : Token) (c : List Token) (d : Token)
    (hc : c ≠ []) : (h :: c).getLastD d = c.getLastD d := by
  rcases c with _ | ⟨c0, c1⟩
  · exact absurd rfl hc
  · simp [List.getLastD_cons]

/-- Once the back of the buffer is settled (not a `STRING`, or `-E` mode),
emitting any further input only appends: the buffer is a stable prefix. -/
theorem foldLines_split (op : Bool) (buf : List Token) (ls : List (List Token))
    (hb : op = true ∨ (buf.getLastD endToken).token ≠ TokKind.STRING) :
    foldLines op buf ls = buf ++ foldLines op [] ls := by
  induction buf with
  | nil => simp
  | cons h c ih =>
    have hcond : op = true ∨ (c = [] → h.token ≠ TokKind.STRING) := by
      rcases hb with hb | hb
      · exact Or.inl hb
      · refine Or.inr (fun hcnil => ?_)
        subst hcnil
        simpa [List.getLastD_cons] using hb
    rw [foldLines_cons op h c ls hcond]
    by_cases hcnil : c = []
    · subst hcnil
      simp [foldLines]
    · rw [ih ?_]
      · simp
      · rcases hb with hb | hb
        · exact Or.inl hb
        · rw [getLastD_cons_of_ne_nil h c endToken hcnil] at hb
          exact Or.inr hb

/-! ### The consume loop and the padding loop of `preprocess_line` -/

theorem loop_foldLines (op : Bool) (n : Nat) (ls : List (List Token))
    (buf : List Token) :
    foldLines op (preprocess_loop op n ls buf).2 (preprocess_loop op n ls buf).1
      = foldLines op buf ls := by
  induction ls generalizing buf with
  | nil => rfl
  | cons l rest ih =>
    show foldLines op
        (if is_lookahead_ready op (emit_line op buf l) n then (rest, emit_line op buf l)
         else preprocess_loop op n rest (emit_line op buf l)).2
        (if is_lookahead_ready op (emit_line op buf l) n then (rest, emit_line op buf l)
         else preprocess_loop op n rest (emit_line op buf l)).1
      = foldLines op (emit_line op buf l) rest
    split
    · rfl
    · exact ih (emit_line op buf l)

theorem loop_exit (op : Bool) (n : Nat) (ls : List (List Token))
    (buf : List Token) :
    (preprocess_loop op n ls buf).1 = [] ∨
      is_lookahead_ready op (preprocess_loop op n ls buf).2 n = true := by
  induction ls generalizing buf with
  | nil => exact Or.inl rfl
  | cons l rest ih =>
    simp only [preprocess_loop]
    by_cases hr : is_lookahead_ready op (emit_line op buf l) n = true
    · simp only [hr, if_true]
      exact Or.inr trivial
    · simp only [hr, if_false]
      exact ih (emit_line op buf l)

theorem ready_le (op : Bool) (buf : List Token) (n : Nat)
    (h : is_lookahead_ready op buf n = true) : n ≤ buf.length := by
  unfold is_lookahead_ready at h
  by_cases hlt : buf.length < n
  · rw [if_pos hlt] at h; exact absurd h (by simp)
  · omega

theorem ready_last (op : Bool) (buf : List Token) (n : Nat)
    (h : is_lookahead_ready op buf n = true) :
    op = true ∨ (buf.getLastD endToken).token ≠ TokKind.STRING := by
  unfold is_lookahead_ready at h
  by_cases hlt : buf.length < n
  · rw [if_pos hlt] at h; exact absurd h (by simp)
  · rw [if_neg hlt] at h
    by_cases hcond : 0 < buf.length ∧ op = false
    · rw [if_pos hcond] at h
      exact Or.inr (by simpa using h)
    · rcases Decidable.not_and_iff_or_not.mp hcond with h0 | h1
      · refine Or.inr ?_
        have : buf = [] := by
          rcases buf with _ | _
          · rfl
          · simp at h0
        subst this
        simp [endToken]
      · rcases hop : op
        · exact absurd hop h1
        · exact Or.inl rfl

theorem pad_go_eq (op : Bool) (n : Nat) :
    ∀ gas buf, n - buf.length ≤ gas →
      pad_go op n gas buf = buf ++ List.replicate (n - buf.length) endToken := by
  intro gas
  induction gas with
  | zero =>
    intro buf h
    have : n - buf.length = 0 := by omega
    simp [pad_go, this]
  | succ k ih =>
    intro buf h
    unfold pad_go
    by_cases hlt : buf.length < n
    · rw [if_pos hlt, add_end]
      rw [ih (buf ++ [endToken]) (by simp; omega)]
      have h1 : n - buf.length = (n - (buf.length + 1)) + 1 := by omega
      simp only [List.length_append, List.length_singleton]
      rw [h1, List.replicate_succ, List.append_assoc]
      rfl
    · rw [if_neg hlt]
      have : n - buf.length = 0 := by omega
      simp [this]

theorem pad_eq (op : Bool) (n : Nat) (buf : List Token) :
    pad_with_end op n buf = buf ++ List.replicate (n - buf.length) endToken :=
  pad_go_eq op n (n - buf.length) buf (Nat.le_refl _)

theorem pad_length (op : Bool) (n : Nat) (buf : List Token) :
    n ≤ (pad_with_end op n buf).length := by
  rw [pad_eq]
  simp
  omega

theorem getD_replicate_self (m k : Nat) (x : Token) :
    (List.replicate m x).getD k x = x := by
  induction m generalizing k with
  | zero => simp
  | succ m ih =>
    rcases k with _ | k
    · simp [List.replicate_succ]
    · simp [List.replicate_succ, ih k]

theorem getD_append_replicate (buf : List Token) (m k : Nat) :
    (buf ++ List.replicate m endToken).getD k endToken = buf.getD k endToken := by
  by_cases h : k < buf.length
  · exact List.getD_append _ _ _ _ h
  · rw [List.getD_append_right _ _ _ _ (by omega), getD_replicate_self,
        List.getD_eq_default _ _ (by omega)]

/-! ### `preprocess_line` preserves the observation stream and restores
stability and alignment -/

theorem ppl_lookahead (op : Bool) (st : PPState) (n : Nat) :
    (preprocess_line op st n).lookahead =
      pad_with_end op n (preprocess_loop op n st.pending st.lookahead).2 := rfl

theorem ppl_pending (op : Bool) (st : PPState) (n : Nat) :
    (preprocess_line op st n).pending =
      (preprocess_loop op n st.pending st.lookahead).1 := rfl

theorem ppl_len (op : Bool) (st : PPState) (n : Nat) :
    n ≤ (preprocess_line op st n).lookahead.length := by
  rw [ppl_lookahead]
  exact pad_length op n _

theorem ppl_stream (op : Bool) (st : PPState) (n k : Nat) :
    stream op (preprocess_line op st n) k = stream op st k := by
  unfold stream fullBuf
  rw [ppl_lookahead, ppl_pending]
  have hfold := loop_foldLines op n st.pending st.lookahead
  rcases loop_exit op n st.pending st.lookahead with hend | hready
  · rw [hend] at hfold ⊢
    simp only [foldLines] at hfold ⊢
    rw [pad_eq, getD_append_replicate, hfold]
  · have hle : n ≤ (preprocess_loop op n st.pending st.lookahead).2.length :=
      ready_le _ _ _ hready
    rw [pad_eq, Nat.sub_eq_zero_of_le hle]
    simp only [List.replicate_zero, List.append_nil]
    rw [hfold]

theorem ppl_good (op : Bool) (st : PPState) (n : Nat) :
    goodState op (preprocess_line op st n) := by
  constructor
  · rcases loop_exit op n st.pending st.lookahead with hend | hready
    · refine Or.inr (Or.inl ?_)
      rw [ppl_pending]
      exact hend
    · rcases ready_last op _ n hready with hop | hlast
      · exact Or.inl hop
      · refine Or.inr (Or.inr ?_)
        have hle := ready_le op _ n hready
        rw [ppl_lookahead, pad_eq, Nat.sub_eq_zero_of_le hle]
        simpa using hlast
  · intro k hk
    unfold stream fullBuf
    rw [ppl_lookahead] at hk
    rw [ppl_lookahead, ppl_pending]
    rcases loop_exit op n st.pending st.lookahead with hend | hready
    · rw [hend]
      simp only [foldLines]
    · have hle := ready_le op _ n hready
      have hpad : pad_with_end op n (preprocess_loop op n st.pending st.lookahead).2
          = (preprocess_loop op n st.pending st.lookahead).2 := by
        rw [pad_eq, Nat.sub_eq_zero_of_le hle]
        simp
      rw [hpad] at hk ⊢
      rw [foldLines_split op _ _ ?hs]
      case hs =>
        rcases ready_last op _ n hready with hop | hlast
        · exact Or.inl hop
        · exact Or.inr hlast
      rw [List.getD_append _ _ _ _ hk]

/-! ### Popping the front of a settled buffer -/

theorem fullBuf_pop (op : Bool) (p : List (List Token)) (h : Token)
    (c : List Token)
    (hst : stableState op { pending := p, lookahead := h :: c }) :
    fullBuf op { pending := p, lookahead := h :: c }
      = h :: fullBuf op { pending := p, lookahead := c } := by
  unfold fullBuf
  rcases hst with hop | hp | hlast
  · exact foldLines_cons op h c p (Or.inl hop)
  · simp only at hp
    subst hp
    simp [foldLines]
  · simp only at hlast
    by_cases hcnil : c = []
    · subst hcnil
      refine foldLines_cons op h [] p (Or.inr fun _ => ?_)
      simpa [List.getLastD_cons] using hlast
    · exact foldLines_cons op h c p (Or.inr fun he => absurd he hcnil)

theorem pop_spec (op : Bool) (p : List (List Token)) (h : Token)
    (c : List Token)
    (hg : goodState op { pending := p, lookahead := h :: c }) :
    (h :: c).headD endToken = stream op { pending := p, lookahead := h :: c } 0 ∧
    goodState op { pending := p, lookahead := c } ∧
    ∀ k, stream op { pending := p, lookahead := c } k
        = stream op { pending := p, lookahead := h :: c } (k + 1) := by
  obtain ⟨hst, hal⟩ := hg
  have hpop := fullBuf_pop op p h c hst
  have hshift : ∀ k, stream op { pending := p, lookahead := c } k
      = stream op { pending := p, lookahead := h :: c } (k + 1) := by
    intro k
    unfold stream
    rw [hpop]
    simp
  refine ⟨?_, ⟨?_, ?_⟩, hshift⟩
  · have := hal 0 (by simp)
    simpa using this
  · rcases hst with hop | hp | hlast
    · exact Or.inl hop
    · exact Or.inr (Or.inl hp)
    · by_cases hcnil : c = []
      · subst hcnil
        exact Or.inr (Or.inr (by simp [endToken]))
      · refine Or.inr (Or.inr ?_)
        simp only at hlast ⊢
        rwa [getLastD_cons_of_ne_nil h c endToken hcnil] at hlast
  · intro k hk
    have h1 : c.getD k endToken = (h :: c).getD (k + 1) endToken := by simp
    rw [h1, hal (k + 1) (by simpa using Nat.succ_lt_succ hk), hshift k]

/-! ### Specifications of `next` and `peekn` over good states -/

theorem next_spec (op : Bool) (st : PPState) (hg : goodState op st) :
    (nextTok op st).1 = stream op st 0 ∧
    goodState op (nextTok op st).2 ∧
    ∀ k, stream op (nextTok op st).2 k = stream op st (k + 1) := by
  have main : ∀ st1 : PPState, goodState op st1 → st1.lookahead ≠ [] →
      (∀ k, stream op st1 k = stream op st k) →
      (st1.lookahead.headD endToken = stream op st 0 ∧
       goodState op { pending := st1.pending, lookahead := st1.lookahead.tail } ∧
       ∀ k, stream op { pending := st1.pending, lookahead := st1.lookahead.tail } k = stream op st (k + 1)) := by
    intro st1 hg1 hne hstr
    rcases hbuf : st1.lookahead with _ | ⟨h, c⟩
    · exact absurd hbuf hne
    · have heta : st1 = { pending := st1.pending, lookahead := h :: c } := by
        rw [← hbuf]
      rw [heta] at hg1
      have hp := pop_spec op st1.pending h c hg1
      refine ⟨?_, ?_, ?_⟩
      · rw [hp.1]
        show stream op { pending := st1.pending, lookahead := h :: c } 0 = stream op st 0
        rw [← heta]
        exact hstr 0
      · exact hp.2.1
      · intro k
        show stream op { pending := st1.pending, lookahead := c } k = stream op st (k + 1)
        rw [hp.2.2 k]
        show stream op { pending := st1.pending, lookahead := h :: c } (k + 1) = stream op st (k + 1)
        rw [← heta]
        exact hstr (k + 1)
  unfold nextTok
  by_cases hlt : st.lookahead.length < 1
  · simp only [if_pos hlt]
    exact main (preprocess_line op st 1) (ppl_good op st 1)
      (by have hl := ppl_len op st 1; intro he; rw [he] at hl; simp at hl)
      (fun k => ppl_stream op st 1 k)
  · simp only [if_neg hlt]
    exact main st hg (by intro he; rw [he] at hlt; simp at hlt) (fun _ => rfl)

theorem peek_spec (op : Bool) (n : Nat) (st : PPState) (hg : goodState op st) :
    goodState op (peeknTok op n st).2 ∧
    (∀ k, stream op (peeknTok op n st).2 k = stream op st k) ∧
    (0 < n → (peeknTok op n st).1 = stream op st (n - 1)) := by
  unfold peeknTok
  by_cases hlt : st.lookahead.length < n
  · simp only [if_pos hlt]
    refine ⟨ppl_good op st n, fun k => ppl_stream op st n k, fun hn => ?_⟩
    have hlen := ppl_len op st n
    have hal := (ppl_good op st n).2 (n - 1) (by omega)
    show (preprocess_line op st n).lookahead.getD (n - 1) endToken = stream op st (n - 1)
    rw [hal, ppl_stream]
  · simp only [if_neg hlt]
    refine ⟨hg, fun k => trivial, fun hn => ?_⟩
    show st.lookahead.getD (n - 1) endToken = stream op st (n - 1)
    exact hg.2 (n - 1) (by omega)

theorem runNext_eq_stream (op : Bool) (ops : List DriverOp) (st : PPState)
    (hg : goodState op st) :
    runNextResults op ops st = (List.range (countNext ops)).map (stream op st) := by
  induction ops generalizing st with
  | nil => rfl
  | cons o ops ih =>
    rcases o with _ | n
    · have hn := next_spec op st hg
      show (nextTok op st).1 :: runNextResults op ops (nextTok op st).2 = _
      rw [ih (nextTok op st).2 hn.2.1, hn.1]
      have hmap : ((List.range (countNext ops)).map (stream op (nextTok op st).2))
          = (List.range (countNext ops)).map (fun k => stream op st (k + 1)) :=
        List.map_congr_left (fun k _ => hn.2.2 k)
      rw [hmap]
      show _ = (List.range (countNext ops + 1)).map (stream op st)
      rw [List.range_succ_eq_map]
      simp [Function.comp]
    · have hp := peek_spec op n st hg
      show runNextResults op ops (peeknTok op n st).2 = _
      rw [ih (peeknTok op n st).2 hp.1]
      exact List.map_congr_left (fun k _ => hp.2.1 k)

theorem countNext_replicate (k : Nat) :
    countNext (List.replicate k DriverOp.nextD) = k := by
  induction k with
  | zero => rfl
  | succ k ih => simp [List.replicate_succ, countNext, ih]

/-! ### Shapes of `add_to_lookahead` by incoming kind -/

theorem add_eq_prep_char (buf : List Token) (t : Token)
    (h : t.token = TokKind.PREP_CHAR) :
    add_to_lookahead false buf t = buf ++ [convert_preprocessing_char t] := by
  unfold add_to_lookahead
  rw [h]
  rfl

theorem add_eq_prep_number (buf : List Token) (t : Token)
    (h : t.token = TokKind.PREP_NUMBER) :
    add_to_lookahead false buf t = buf ++ [convert_preprocessing_number t] := by
  unfold add_to_lookahead
  rw [h]
  rfl

theorem add_eq_prep_string (buf : List Token) (t : Token)
    (h : t.token = TokKind.PREP_STRING) :
    add_to_lookahead false buf t = joinStrings buf (convert_preprocessing_string t) := by
  unfold add_to_lookahead
  rw [h]
  rfl

theorem add_eq_string (buf : List Token) (t : Token)
    (h : t.token = TokKind.STRING) :
    add_to_lookahead false buf t = joinStrings buf t := by
  unfold add_to_lookahead
  rw [h]
  rfl

theorem add_eq_other (buf : List Token) (t : Token)
    (h1 : t.token ≠ TokKind.PREP_CHAR) (h2 : t.token ≠ TokKind.PREP_NUMBER)
    (h3 : t.token ≠ TokKind.PREP_STRING) (h4 : t.token ≠ TokKind.STRING) :
    add_to_lookahead false buf t = buf ++ [t] := by
  unfold add_to_lookahead
  rcases htk : t.token <;> simp_all

/-! ### Claim C1 machinery: the buffer only ever holds parser-legal kinds -/

theorem cleanBuf_append (buf : List Token) (x : Token) (hb : cleanBuf buf)
    (hx : cleanKind x.token) : cleanBuf (buf ++ [x]) := by
  intro t ht
  rcases List.mem_append.mp ht with h | h
  · exact hb t h
  · rw [List.mem_singleton.mp h]
    exact hx

theorem cleanBuf_join (buf : List Token) (x : Token) (hb : cleanBuf buf)
    (hx : cleanKind x.token) : cleanBuf (joinStrings buf x) := by
  unfold joinStrings
  rcases h : buf.getLast? with _ | prev
  · exact cleanBuf_append buf x hb hx
  · simp only []
    split
    · intro t ht
      rcases List.mem_append.mp ht with h1 | h1
      · exact hb t ((List.dropLast_sublist buf).subset h1)
      · rw [List.mem_singleton.mp h1]
        exact hx
    · exact cleanBuf_append buf x hb hx

theorem add_clean (buf : List Token) (t : Token) (hb : cleanBuf buf)
    (ht : t.token ≠ TokKind.NEWLINE) :
    cleanBuf (add_to_lookahead false buf t) := by
  by_cases h1 : t.token = TokKind.PREP_CHAR
  · rw [add_eq_prep_char buf t h1]
    exact cleanBuf_append buf _ hb (by simp [cleanKind, convert_preprocessing_char])
  · by_cases h2 : t.token = TokKind.PREP_NUMBER
    · rw [add_eq_prep_number buf t h2]
      exact cleanBuf_append buf _ hb (by simp [cleanKind, convert_preprocessing_number])
    · by_cases h3 : t.token = TokKind.PREP_STRING
      · rw [add_eq_prep_string buf t h3]
        exact cleanBuf_join buf _ hb (by simp [cleanKind, convert_preprocessing_string])
      · by_cases h4 : t.token = TokKind.STRING
        · rw [add_eq_string buf t h4]
          exact cleanBuf_join buf _ hb (by simp [cleanKind, h4])
        · rw [add_eq_other buf t h1 h2 h3 h4]
          exact cleanBuf_append buf _ hb ⟨ht, h2, h3, h1⟩

theorem emit_line_clean (buf l : List Token) (hb : cleanBuf buf) :
    cleanBuf (emit_line false buf l) := by
  induction l generalizing buf with
  | nil => exact hb
  | cons t l ih =>
    unfold emit_line
    split
    · next hcond =>
      refine ih _ (add_clean buf t hb ?_)
      rcases hcond with hcond | hcond
      · exact hcond
      · simp at hcond
    · exact ih _ hb

theorem loop_clean (n : Nat) (ls : List (List Token)) (buf : List Token)
    (hb : cleanBuf buf) : cleanBuf (preprocess_loop false n ls buf).2 := by
  induction ls generalizing buf with
  | nil => exact hb
  | cons l rest ih =>
    simp only [preprocess_loop]
    split
    · exact emit_line_clean buf l hb
    · exact ih _ (emit_line_clean buf l hb)

theorem pad_clean (n : Nat) (buf : List Token) (hb : cleanBuf buf) :
    cleanBuf (pad_with_end false n buf) := by
  rw [pad_eq]
  intro t ht
  rcases List.mem_append.mp ht with h | h
  · exact hb t h
  · rw [List.eq_of_mem_replicate h]
    simp [cleanKind, endToken]

theorem ppl_clean (st : PPState) (n : Nat) (hb : cleanBuf st.lookahead) :
    cleanBuf (preprocess_line false st n).lookahead := by
  rw [ppl_lookahead]
  exact pad_clean n _ (loop_clean n st.pending st.lookahead hb)

theorem cleanBuf_getD (buf : List Token) (k : Nat) (hb : cleanBuf buf) :
    cleanKind ((buf.getD k endToken).token) := by
  by_cases h : k < buf.length
  · rw [List.getD_eq_getElem _ _ h]
    exact hb _ (List.getElem_mem h)
  · rw [List.getD_eq_default _ _ (by omega)]
    simp [cleanKind, endToken]

theorem cleanBuf_headD (buf : List Token) (hb : cleanBuf buf) :
    cleanKind ((buf.headD endToken).token) := by
  rcases buf with _ | ⟨h, c⟩
  · simp [cleanKind, endToken]
  · exact hb h (by simp)

theorem cleanBuf_tail (buf : List Token) (hb : cleanBuf buf) :
    cleanBuf buf.tail :=
  fun t ht => hb t (List.mem_of_mem_tail ht)

theorem consume_fst (op : Bool) (st : PPState) (ty : TokKind) :
    (consume op st ty).1 = (nextTok op st).1 := by
  unfold consume
  by_cases h1 : (nextTok op st).1.token = ty
  · simp [h1]
  · by_cases h2 : (nextTok op st).1.token = TokKind.NUMBER <;>
      (simp [h1, h2]; all_goals (split <;> rfl))

/-! ### Claim C2 machinery: no two adjacent `STRING` tokens survive -/

theorem hasAdj_cons_cons (a b : Token) (l : List Token) :
    has_adjacent_strings (a :: b :: l) =
      ((decide (a.token = TokKind.STRING) && decide (b.token = TokKind.STRING)) ||
        has_adjacent_strings (b :: l)) := rfl

theorem hasAdj_snoc (l : List Token) (a : Token) :
    has_adjacent_strings (l ++ [a]) =
      (has_adjacent_strings l ||
        match l.getLast? with
        | some b => decide (b.token = TokKind.STRING) && decide (a.token = TokKind.STRING)
        | none => false) := by
  induction l with
  | nil => simp [has_adjacent_strings]
  | cons x l ih =>
    rcases l with _ | ⟨y, r⟩
    · simp [has_adjacent_strings]
    · rw [List.cons_append] at ih
      rw [List.cons_append, List.cons_append]
      rw [hasAdj_cons_cons x y (r ++ [a]), ih, hasAdj_cons_cons x y r,
        List.getLast?_cons_cons]
      rcases (y :: r).getLast? with _ | b <;> simp [Bool.or_assoc]

theorem hasAdj_append_one (l : List Token) (a : Token)
    (hl : has_adjacent_strings l = false)
    (hla : (l.getLastD endToken).token = TokKind.STRING → a.token ≠ TokKind.STRING) :
    has_adjacent_strings (l ++ [a]) = false := by
  rw [hasAdj_snoc, hl]
  simp only [Bool.false_or]
  rcases h : l.getLast? with _ | b
  · rfl
  · simp only []
    have hb : l.getLastD endToken = b := by
      rw [List.getLastD_eq_getLast?, h]
      rfl
    by_cases hbs : b.token = TokKind.STRING
    · have := hla (by rw [hb, hbs])
      simp [this]
    · simp [hbs]

theorem hasAdj_join (buf : List Token) (x : Token)
    (hb : has_adjacent_strings buf = false) :
    has_adjacent_strings (joinStrings buf x) = false := by
  unfold joinStrings
  rcases h : buf.getLast? with _ | prev
  · have : buf = [] := by
      rcases buf with _ | _
      · rfl
      · simp at h
    subst this
    simp [has_adjacent_strings]
  · simp only []
    have hsplit : buf.dropLast ++ [prev] = buf :=
      List.dropLast_append_getLast? prev (by rw [h]; rfl)
    have hdl : has_adjacent_strings buf.dropLast = false := by
      have := hasAdj_snoc buf.dropLast prev
      rw [hsplit, hb] at this
      rcases hdd : has_adjacent_strings buf.dropLast
      · rfl
      · rw [hdd] at this
        simp at this
    split
    · next hps =>
      refine hasAdj_append_one _ _ hdl ?_
      intro hlast _
      -- the last of dropLast would be a STRING adjacent to prev inside buf
      have hsnoc := hasAdj_snoc buf.dropLast prev
      rw [hsplit, hb] at hsnoc
      rcases hdlast : buf.dropLast.getLast? with _ | b
      · rw [List.getLastD_eq_getLast?, hdlast] at hlast
        exact absurd hlast (by simp [endToken])
      · rw [hdlast] at hsnoc
        rw [List.getLastD_eq_getLast?, hdlast] at hlast
        simp only [Option.getD_some] at hlast
        rw [hdl] at hsnoc
        simp [hlast, hps] at hsnoc
    · next hps =>
      refine hasAdj_append_one _ _ hb ?_
      intro hlast
      rw [List.getLastD_eq_getLast?, h] at hlast
      exact absurd hlast hps

theorem hasAdj_add (buf : List Token) (t : Token)
    (hb : has_adjacent_strings buf = false) :
    has_adjacent_strings (add_to_lookahead false buf t) = false := by
  by_cases h1 : t.token = TokKind.PREP_CHAR
  · rw [add_eq_prep_char buf t h1]
    exact hasAdj_append_one _ _ hb (fun _ => by simp [convert_preprocessing_char])
  · by_cases h2 : t.token = TokKind.PREP_NUMBER
    · rw [add_eq_prep_number buf t h2]
      exact hasAdj_append_one _ _ hb (fun _ => by simp [convert_preprocessing_number])
    · by_cases h3 : t.token = TokKind.PREP_STRING
      · rw [add_eq_prep_string buf t h3]
        exact hasAdj_join _ _ hb
      · by_cases h4 : t.token = TokKind.STRING
        · rw [add_eq_string buf t h4]
          exact hasAdj_join _ _ hb
        · rw [add_eq_other buf t h1 h2 h3 h4]
          exact hasAdj_append_one _ _ hb (fun _ => h4)

theorem emit_line_hasAdj (buf l : List Token)
    (hb : has_adjacent_strings buf = false) :
    has_adjacent_strings (emit_line false buf l) = false := by
  induction l generalizing buf with
  | nil => exact hb
  | cons t l ih =>
    unfold emit_line
    split
    · exact ih _ (hasAdj_add buf t hb)
    · exact ih _ hb

theorem foldLines_hasAdj (buf : List Token) (ls : List (List Token))
    (hb : has_adjacent_strings buf = false) :
    has_adjacent_strings (foldLines false buf ls) = false := by
  induction ls generalizing buf with
  | nil => exact hb
  | cons l rest ih => exact ih _ (emit_line_hasAdj buf l hb)

/-! ### Claim C4/C5 machinery: macro-invocation collection -/

theorem read_invocation_loop_spec :
    ∀ (input : List Token) (d : Nat) (line L R : List Token),
      read_invocation_loop d line input = some (L, R) →
      ∃ pre, input = pre ++ R ∧
        L = line ++ pre.filter (fun x => decide (x.token ≠ TokKind.NEWLINE)) ∧
        nestAfter d pre = 0 ∧
        firstBalancedLen d input = some pre.length := by
  intro input
  induction input with
  | nil =>
    intro d line L R h
    by_cases hd : d = 0
    · unfold read_invocation_loop at h
      rw [if_pos hd, Option.some_inj] at h
      injection h with hL hR
      refine ⟨[], by simp [← hR], by simp [← hL], hd, ?_⟩
      simp [firstBalancedLen, hd]
    · unfold read_invocation_loop at h
      rw [if_neg hd] at h
      exact absurd h (by simp)
  | cons t rest ih =>
    intro d line L R h
    by_cases hd : d = 0
    · unfold read_invocation_loop at h
      rw [if_pos hd, Option.some_inj] at h
      injection h with hL hR
      refine ⟨[], by simp [← hR], by simp [← hL], hd, ?_⟩
      simp [firstBalancedLen, hd]
    · by_cases hnl : t.token = TokKind.NEWLINE
      · unfold read_invocation_loop at h
        rw [if_neg hd, if_pos hnl] at h
        obtain ⟨pre, hpre, hL, hnest, hlen⟩ := ih (nest_step d t) line L R h
        refine ⟨t :: pre, by rw [hpre]; rfl, ?_, ?_, ?_⟩
        · rw [hL, List.filter_cons]
          simp [hnl]
        · show nestAfter (nest_step d t) pre = 0
          exact hnest
        · show firstBalancedLen d (t :: rest) = some (t :: pre).length
          unfold firstBalancedLen
          rw [if_neg hd, hlen]
          rfl
      · unfold read_invocation_loop at h
        rw [if_neg hd, if_neg hnl] at h
        obtain ⟨pre, hpre, hL, hnest, hlen⟩ := ih (nest_step d t) (line ++ [t]) L R h
        refine ⟨t :: pre, by rw [hpre]; rfl, ?_, ?_, ?_⟩
        · rw [hL, List.filter_cons]
          rw [List.append_assoc]
          simp [hnl]
        · show nestAfter (nest_step d t) pre = 0
          exact hnest
        · show firstBalancedLen d (t :: rest) = some (t :: pre).length
          unfold firstBalancedLen
          rw [if_neg hd, hlen]
          rfl

theorem read_macro_invocation_lparen (t : Token) (rest line : List Token)
    (ht : t.token = TokKind.LPAREN) :
    read_macro_invocation (t :: rest) line
      = read_invocation_loop 1 (line ++ [t]) rest := by
  show (if t.token = TokKind.LPAREN then read_invocation_loop 1 (line ++ [t]) rest
        else some (line ++ [t], rest)) = read_invocation_loop 1 (line ++ [t]) rest
  rw [if_pos ht]

theorem read_macro_invocation_other (t : Token) (rest line : List Token)
    (ht : t.token ≠ TokKind.LPAREN) :
    read_macro_invocation (t :: rest) line = some (line ++ [t], rest) := by
  show (if t.token = TokKind.LPAREN then read_invocation_loop 1 (line ++ [t]) rest
        else some (line ++ [t], rest)) = some (line ++ [t], rest)
  rw [if_neg ht]

theorem pull_spec (nls : List Token) (t2 : Token) (rest : List Token)
    (hnls : ∀ x ∈ nls, x.token = TokKind.NEWLINE)
    (ht2 : t2.token ≠ TokKind.NEWLINE) :
    pull_non_newline (nls ++ t2 :: rest) = (t2, rest) := by
  unfold pull_non_newline
  have hdw : (nls ++ t2 :: rest).dropWhile
      (fun t => decide (t.token = TokKind.NEWLINE)) = t2 :: rest := by
    induction nls with
    | nil =>
      rw [List.nil_append, List.dropWhile_cons, if_neg (by simp [ht2])]
    | cons x xs ihx =>
      rw [List.cons_append, List.dropWhile_cons,
        if_pos (by simp [hnls x (by simp)])]
      exact ihx (fun y hy => hnls y (by simp [hy]))
  rw [hdw]

theorem skip_fresh (line input : List Token) :
    skip_or_get_token { line := line, input := input } line.length =
      ((pull_non_newline input).1,
       { line := line ++ [(pull_non_newline input).1],
         input := (pull_non_newline input).2 }) := by
  unfold skip_or_get_token
  have hc1 : ¬(line.length + 1 = line.length ∧
      ((line.getD line.length endToken).token = TokKind.NEWLINE)) :=
    fun hc => absurd hc.1 (by omega)
  simp only [if_neg hc1]
  simp

theorem skip_pop_newline (l : List Token) (nl : Token) (input : List Token)
    (hnl : nl.token = TokKind.NEWLINE) :
    skip_or_get_token { line := l ++ [nl], input := input } l.length =
      ((pull_non_newline input).1,
       { line := l ++ [(pull_non_newline input).1],
         input := (pull_non_newline input).2 }) := by
  unfold skip_or_get_token
  have hc1 : l.length + 1 = (l ++ [nl]).length ∧
      (((l ++ [nl]).getD l.length endToken).token = TokKind.NEWLINE) := by
    refine ⟨by simp, ?_⟩
    rw [List.getD_append_right _ _ _ _ (Nat.le_refl _)]
    simpa using hnl
  simp only [if_pos hc1, List.dropLast_concat]
  simp

/-! ### Claim C8 machinery: the `-E` emission loop -/

theorem emitTokenText_eq_form (t : Token) (h : t.token ≠ TokKind.NUMBER) :
    emitTokenText t = emittedForm t := by
  unfold emitTokenText emittedForm
  rcases htk : t.token <;> simp_all

theorem nextTok_cons_true (p : List (List Token)) (h : Token) (c : List Token) :
    nextTok true { pending := p, lookahead := h :: c }
      = (h, { pending := p, lookahead := c }) := by
  unfold nextTok
  rw [if_neg (by simp)]
  rfl

/-- C8 (amended): in `-E` mode, `preprocess` drives `next()` to `END` and
emits each token preceded by `leading_whitespace` spaces, strings
(`PREP_STRING`/`STRING`) surrounded by double quotes with their original
escapes, character constants surrounded by single quotes, and every other
token — numbers included, which remain `PREP_NUMBER` in `-E` mode — by its
raw spelling (`emittedForm`); typed `NUMBER` tokens cannot occur (they are an
assertion failure in the source) and are excluded by hypothesis. -/
theorem preprocess_output_format (ts : List Token)
    (h : ∀ x ∈ ts, x.token ≠ TokKind.END ∧ x.token ≠ TokKind.NUMBER) :
    preprocess_output (ts.length + 1) { pending := [], lookahead := ts } =
      concatAll (ts.map emittedForm) := by
  induction ts with
  | nil => rfl
  | cons t ts ih =>
    show preprocess_output (ts.length + 1 + 1) { pending := [], lookahead := t :: ts }
      = concatAll ((t :: ts).map emittedForm)
    unfold preprocess_output
    simp only [nextTok_cons_true]
    rw [if_neg (h t (by simp)).1]
    rw [emitTokenText_eq_form t (h t (by simp)).2]
    rw [ih (fun x hx => h x (by simp [hx]))]
    rfl

/-! ### Claim C10 machinery: `inject_line` -/

theorem dropTrailingEnds_eq_self (buf : List Token)
    (h : buf = [] ∨ ((buf.getLastD endToken).token ≠ TokKind.END)) :
    dropTrailingEnds buf = buf := by
  rcases h with h | h
  · subst h
    rfl
  · unfold dropTrailingEnds
    rcases hbuf : buf.reverse with _ | ⟨x, r⟩
    · have : buf = [] := by simpa using congrArg List.reverse hbuf
      simp [this]
    · have hx : buf.getLast? = some x := by
        rw [← List.head?_reverse, hbuf]
        rfl
      have hxe : x.token ≠ TokKind.END := by
        rw [List.getLastD_eq_getLast?, hx] at h
        simpa using h
      rw [List.dropWhile_cons, if_neg (by simp [hxe])]
      rw [← hbuf, List.reverse_reverse]

theorem dropTrailingEnds_no_trailing (buf : List Token) :
    dropTrailingEnds buf = [] ∨
      ((dropTrailingEnds buf).getLastD endToken).token ≠ TokKind.END := by
  unfold dropTrailingEnds
  rcases hdw : buf.reverse.dropWhile (fun t => decide (t.token = TokKind.END))
    with _ | ⟨x, r⟩
  · rw [hdw]
    exact Or.inl rfl
  · rw [hdw]
    refine Or.inr ?_
    have hx : (x :: r).head? = some x := rfl
    have hpx : ¬(decide (x.token = TokKind.END) = true) := by
      have := List.head?_dropWhile_not (fun t => decide (t.token = TokKind.END)) buf.reverse
      rw [hdw, hx] at this
      simpa using this
    have hlast : (x :: r).reverse.getLastD endToken = x := by
      rw [List.getLastD_eq_getLast?, List.getLast?_reverse]
      rfl
    rw [hlast]
    simpa using hpx

theorem pad_zero (op : Bool) (b : List Token) : pad_with_end op 0 b = b := by
  unfold pad_with_end
  rw [Nat.zero_sub]
  rfl

theorem inject_loop_ready (pending : List (List Token)) (l : List Token)
    (hready : ((emit_line false [] l).getLastD endToken).token ≠ TokKind.STRING) :
    preprocess_loop false 0 (l :: pending) [] = (pending, emit_line false [] l) := by
  simp only [preprocess_loop]
  rw [if_pos ?hr]
  case hr =>
    unfold is_lookahead_ready
    rw [if_neg (by omega)]
    by_cases hlen : 0 < (emit_line false [] l).length ∧ (false : Bool) = false
    · rw [if_pos hlen]
      simpa using hready
    · rw [if_neg hlen]

/-! ## Claim theorems -/

/-- C1: in non-`-E` mode, every token delivered to the parser through `next`,
`peek`, `peekn` or `consume` has a kind distinct from `NEWLINE`,
`PREP_NUMBER`, `PREP_STRING` and `PREP_CHAR`: `NEWLINE` tokens are filtered
out before entering the lookahead buffer and every preprocessing token is
converted to its typed form (`NUMBER` or `STRING`) before being buffered, so
a clean buffer stays clean and only clean kinds can be returned. -/
theorem parser_never_sees_raw_tokens (st : PPState) (n : Nat) (ty : TokKind)
    (hb : cleanBuf st.lookahead) :
    cleanKind (nextTok false st).1.token ∧
    cleanKind (peekTok false st).1.token ∧
    cleanKind (peeknTok false n st).1.token ∧
    cleanKind (consume false st ty).1.token ∧
    cleanBuf (nextTok false st).2.lookahead ∧
    cleanBuf (peeknTok false n st).2.lookahead := by
  have hnext : cleanKind (nextTok false st).1.token ∧
      cleanBuf (nextTok false st).2.lookahead := by
    unfold nextTok
    by_cases hlt : st.lookahead.length < 1
    · simp only [if_pos hlt]
      exact ⟨cleanBuf_headD _ (ppl_clean st 1 hb), cleanBuf_tail _ (ppl_clean st 1 hb)⟩
    · simp only [if_neg hlt]
      exact ⟨cleanBuf_headD _ hb, cleanBuf_tail _ hb⟩
  have hpeek : ∀ m, cleanKind (peeknTok false m st).1.token ∧
      cleanBuf (peeknTok false m st).2.lookahead := by
    intro m
    unfold peeknTok
    by_cases hlt : st.lookahead.length < m
    · simp only [if_pos hlt]
      exact ⟨cleanBuf_getD _ _ (ppl_clean st m hb), ppl_clean st m hb⟩
    · simp only [if_neg hlt]
      exact ⟨cleanBuf_getD _ _ hb, hb⟩
  refine ⟨hnext.1, (hpeek 1).1, (hpeek n).1, ?_, hnext.2, (hpeek n).2⟩
  rw [consume_fst]
  exact hnext.1

theorem parser_never_sees_raw_tokens_witness :
    cleanKind (nextTok false { pending := [[tPrepNum, newlineToken]], lookahead := [] }).1.token ∧
    cleanKind (consume false { pending := [[tPrepNum, newlineToken]], lookahead := [] } TokKind.IDENTIFIER).1.token := by
  have h := parser_never_sees_raw_tokens
      { pending := [[tPrepNum, newlineToken]], lookahead := [] } 2 TokKind.IDENTIFIER
      (fun t ht => absurd ht (List.not_mem_nil t))
  exact ⟨h.1, h.2.2.2.1⟩

/-- C2: adjacent `STRING` tokens are never both present in the emitted stream:
whenever a `STRING` token reaches `add_to_lookahead` in non-`-E` mode and the
back of the buffer is already a `STRING`, the back is replaced by the incoming
token whose payload is the concatenation of the two; `is_lookahead_ready` is
false while the last buffered token is a `STRING`, so the driver keeps
pulling; and the fully emitted buffer of any input never holds two adjacent
`STRING` tokens. -/
theorem adjacent_strings_joined (buf : List Token) (prev t : Token) (n : Nat)
    (ls : List (List Token))
    (hlast : buf.getLast? = some prev) (hprev : prev.token = TokKind.STRING)
    (ht : t.token = TokKind.STRING) :
    add_to_lookahead false buf t
        = buf.dropLast ++ [{ t with string := prev.string ++ t.string }] ∧
    is_lookahead_ready false buf n = false ∧
    has_adjacent_strings (fullBuf false { pending := ls, lookahead := [] }) = false := by
  refine ⟨?_, ?_, ?_⟩
  · rw [add_eq_string buf t ht]
    unfold joinStrings
    simp only [hlast]
    rw [if_pos hprev]
  · unfold is_lookahead_ready
    have hlen : 0 < buf.length := by
      rcases buf with _ | _
      · simp at hlast
      · simp
    by_cases hlt : buf.length < n
    · rw [if_pos hlt]
    · rw [if_neg hlt, if_pos ⟨hlen, rfl⟩]
      simp [hlast, hprev]
  · exact foldLines_hasAdj [] ls rfl

theorem adjacent_strings_joined_witness :
    add_to_lookahead false [tStr1] tStr2 = [{ tStr2 with string := "abcd" }] ∧
    is_lookahead_ready false [tStr1] 1 = false := by
  have h := adjacent_strings_joined [tStr1] tStr1 tStr2 1 []
      (by decide) (by decide) (by decide)
  refine ⟨?_, h.2.1⟩
  rw [h.1]
  decide

/-- C3: the sequence of tokens returned by successive `next()` calls is the
same regardless of any interleaved `peek()`/`peekn(k)` calls: `peekn` only
fills the lookahead buffer and reads without removing, so running any
interaction sequence returns on its `next` calls exactly what running the
same number of bare `next` calls would return. -/
theorem next_independent_of_peeks (op : Bool) (ops : List DriverOp)
    (st : PPState) (hg : goodState op st) :
    runNextResults op ops st
      = runNextResults op (List.replicate (countNext ops) DriverOp.nextD) st := by
  rw [runNext_eq_stream op ops st hg,
    runNext_eq_stream op (List.replicate (countNext ops) DriverOp.nextD) st hg,
    countNext_replicate]

theorem next_independent_of_peeks_witness :
    runNextResults false [DriverOp.peekD 3, DriverOp.nextD, DriverOp.peekD 1, DriverOp.nextD]
        { pending := [[tIdent, newlineToken], [tIdent2, newlineToken]], lookahead := [] }
      = runNextResults false (List.replicate 2 DriverOp.nextD)
        { pending := [[tIdent, newlineToken], [tIdent2, newlineToken]], lookahead := [] } :=
  next_independent_of_peeks false _ _
    ⟨Or.inr (Or.inr (by decide)), fun k hk => absurd hk (Nat.not_lt_zero k)⟩

/-- C4: when argument collection of a function-like macro starts on `(`, the
loop consumes exactly the shortest prefix after which the parenthesis nesting
depth returns to zero (`firstBalancedLen`), crossing line ends: every
`NEWLINE` in the consumed prefix is dropped, everything else lands in the
single working token sequence; and on the refill path, `skip_or_get_token`
drops the trailing `NEWLINE` of the current line and pulls the next line's
tokens, skipping `NEWLINE` separators at the join. -/
theorem macro_invocation_cross_line_collection
    (t : Token) (rest line L R : List Token)
    (l2 : List Token) (nl t2 : Token) (nls rest2 : List Token)
    (ht : t.token = TokKind.LPAREN)
    (hr : read_macro_invocation (t :: rest) line = some (L, R))
    (hnl : nl.token = TokKind.NEWLINE)
    (hnls : ∀ x ∈ nls, x.token = TokKind.NEWLINE)
    (ht2 : t2.token ≠ TokKind.NEWLINE) :
    (rest = rest.take (rest.length - R.length) ++ R ∧
     L = (line ++ [t]) ++ (rest.take (rest.length - R.length)).filter
         (fun x => decide (x.token ≠ TokKind.NEWLINE)) ∧
     nestAfter 1 (rest.take (rest.length - R.length)) = 0 ∧
     firstBalancedLen 1 rest = some (rest.length - R.length)) ∧
    skip_or_get_token { line := l2 ++ [nl], input := nls ++ t2 :: rest2 } l2.length
      = (t2, { line := l2 ++ [t2], input := rest2 }) := by
  constructor
  · rw [read_macro_invocation_lparen t rest line ht] at hr
    obtain ⟨pre, hpre, hL, hnest, hlen⟩ :=
      read_invocation_loop_spec rest 1 (line ++ [t]) L R hr
    have htake : rest.take (rest.length - R.length) = pre := by
      rw [hpre, List.length_append, Nat.add_sub_cancel]
      exact List.take_left pre R
    rw [htake]
    refine ⟨hpre, hL, hnest, ?_⟩
    rw [hlen, hpre, List.length_append, Nat.add_sub_cancel]
  · rw [skip_pop_newline l2 nl (nls ++ t2 :: rest2) hnl,
      pull_spec nls t2 rest2 hnls ht2]

theorem macro_invocation_cross_line_collection_witness :
    firstBalancedLen 1 [tPrepNum, tComma, newlineToken, tPrepNum2, tRparen, tIdent]
        = some ([tPrepNum, tComma, newlineToken, tPrepNum2, tRparen, tIdent].length
            - [tIdent].length) ∧
    skip_or_get_token { line := [tIdent] ++ [newlineToken], input := [newlineToken] ++ tIdent2 :: [tRparen] } [tIdent].length
      = (tIdent2, { line := [tIdent] ++ [tIdent2], input := [tRparen] }) := by
  have h := macro_invocation_cross_line_collection tLparen
      [tPrepNum, tComma, newlineToken, tPrepNum2, tRparen, tIdent] []
      [tLparen, tPrepNum, tComma, tPrepNum2, tRparen] [tIdent]
      [tIdent] newlineToken tIdent2 [newlineToken] [tRparen]
      (by decide) (by decide) (by decide) (by decide) (by decide)
  exact ⟨h.1.2.2.2, h.2⟩

/-- C5: a function-like macro identifier is treated as an invocation only if
the next token is `(`: when the token after the identifier is anything else,
`read_macro_invocation` pushes just that one token and collects nothing, so
the identifier and its follower stay in the token sequence unexpanded; and
the follower examined on the refill path is the next non-`NEWLINE` token,
since `skip_or_get_token` pulls fresh input skipping every `NEWLINE`.  (The
final expansion decision itself lives in `macro.c`, outside the given
sources; per spec section 4.5 it expands only when this follower is `(`.) -/
theorem function_like_requires_lparen (t : Token) (rest line : List Token)
    (line2 nls rest2 : List Token) (t2 : Token)
    (ht : t.token ≠ TokKind.LPAREN)
    (hnls : ∀ x ∈ nls, x.token = TokKind.NEWLINE)
    (ht2 : t2.token ≠ TokKind.NEWLINE) :
    read_macro_invocation (t :: rest) line = some (line ++ [t], rest) ∧
    skip_or_get_token { line := line2, input := nls ++ t2 :: rest2 } line2.length
      = (t2, { line := line2 ++ [t2], input := rest2 }) := by
  refine ⟨read_macro_invocation_other t rest line ht, ?_⟩
  rw [skip_fresh line2 (nls ++ t2 :: rest2), pull_spec nls t2 rest2 hnls ht2]

theorem function_like_requires_lparen_witness :
    read_macro_invocation (tIdent2 :: [tPrepNum]) [tIdent]
      = some ([tIdent] ++ [tIdent2], [tPrepNum]) ∧
    skip_or_get_token { line := [tIdent], input := [] ++ tLparen :: [tPrepNum] } [tIdent].length
      = (tLparen, { line := [tIdent] ++ [tLparen], input := [tPrepNum] }) :=
  function_like_requires_lparen tIdent2 [tPrepNum] [tIdent] [tIdent] [] [tPrepNum]
    tLparen (by decide) (by decide) (by decide)

/-- C6: for every n, after `preprocess_line(n)` the lookahead buffer holds at
least n tokens; the buffer equals the consume-loop result followed by exactly
the `END` tokens needed to reach n, and that padding is nontrivial only when
the loop stopped because the input was exhausted. -/
theorem preprocess_line_fills_n (op : Bool) (st : PPState) (n : Nat) :
    n ≤ (preprocess_line op st n).lookahead.length ∧
    (preprocess_line op st n).lookahead
      = (preprocess_loop op n st.pending st.lookahead).2 ++
          List.replicate
            (n - (preprocess_loop op n st.pending st.lookahead).2.length) endToken ∧
    ((preprocess_loop op n st.pending st.lookahead).1 = [] ∨
      n ≤ (preprocess_loop op n st.pending st.lookahead).2.length) := by
  refine ⟨ppl_len op st n, ?_, ?_⟩
  · rw [ppl_lookahead, pad_eq]
  · rcases loop_exit op n st.pending st.lookahead with h | h
    · exact Or.inl h
    · exact Or.inr (ready_le _ _ _ h)

/-- C7 (code bug): `consume` pops via `next()`, but on a kind mismatch the
source only calls `error(...)` and `exit(1)` when the popped token is a
`NUMBER` — the human-readable expected-kind string is computed for every kind
yet used only in that branch.  With the next token `(` and requested kind
`IDENTIFIER`, `consume` returns the mismatched token with no diagnostic and
no exit, contradicting the claim that every mismatch is fatal. -/
theorem consume_mismatch_not_fatal :
    consume false { pending := [], lookahead := [tLparen] } TokKind.IDENTIFIER
      = (tLparen, { pending := [], lookahead := [] }, none) := by
  decide

/-- C8 counterexample: in `-E` mode numbers are untyped `PREP_NUMBER` tokens
and `preprocess` emits their raw spelling — the hexadecimal literal `0x1f` is
printed as `0x1f`, not as the canonical typed printing `31` (and no `u`/`l`
suffix logic is involved), so the claim's number clause fails. -/
theorem preprocess_emits_raw_number :
    preprocess_output 2 { pending := [], lookahead := [tHexNum] } = "0x1f" ∧
    ("0x1f" : String) ≠ "31" := by
  constructor
  · decide
  · decide

theorem preprocess_output_format_witness :
    preprocess_output ([tStr1, tHexNum].length + 1)
        { pending := [], lookahead := [tStr1, tHexNum] }
      = concatAll ([tStr1, tHexNum].map emittedForm) :=
  preprocess_output_format [tStr1, tHexNum] (by decide)

/-- C9 counterexample: `warning()` in `context.c` checks the suppression flag
for every caller, so with the flag set a warning that does not come from
`#warning` (here an unknown-directive message) prints nothing — contradicting
the claim that only `#warning` diagnostics are suppressible. -/
theorem warning_suppression_counterexample :
    (warning { suppress_warning := true, errors := 0 } "Unknown directive.").2
      = none := rfl

/-- C9 (amended): the suppression flag suppresses every warning issued through
`warning()` — the sink is caller-independent, so `#warning` is not special —
and a warning prints exactly when the flag is clear; every call to `error()`
increments the error counter and leaves a printed line. -/
theorem warnings_suppressed_errors_counted (c : Ctx) (msg : String) :
    ((warning c msg).2 = none ↔ c.suppress_warning = true) ∧
    (error c msg).1.errors = c.errors + 1 ∧
    (warning c msg).1 = c := by
  refine ⟨?_, rfl, ?_⟩
  · unfold warning
    rcases hs : c.suppress_warning <;> simp [hs]
  · unfold warning
    rcases hs : c.suppress_warning <;> simp [hs]

/-- C10 counterexample: the lookahead buffer after `inject_line` does not in
general contain exactly the tokens produced from the injected text.  When the
injected line ends in a string literal, `is_lookahead_ready(0)` is false
while the back of the buffer is a `STRING`, so the do-while of
`preprocess_line(0)` pulls the next real input line too: injecting a line
that produces just the string token `tStr1` while the line `x` is still
pending leaves the buffer `[tStr1, tIdent]`, not `[tStr1]`. -/
theorem inject_line_pulls_more_counterexample :
    inject_line false { pending := [[tIdent, newlineToken]], lookahead := [] }
        [tStr1, newlineToken]
      = { pending := [], lookahead := [tStr1, tIdent] } ∧
    emit_line false [] [tStr1, newlineToken] = [tStr1] ∧
    [tStr1, tIdent] ≠ [tStr1] := by
  refine ⟨?_, ?_, ?_⟩ <;> decide

/-- C10 (amended): `inject_line` processes exactly the injected text provided
the tokens it produces do not end in a `STRING` (otherwise the driver is not
ready and pulls subsequent real input lines as well): starting from an empty
lookahead buffer, afterwards the buffer holds exactly the tokens produced
from the injected line and the injected line has been consumed — the model
analogue of `line_buffer = NULL`; and the final pop loop guarantees the
buffer never ends in an `END` token, so a later `next()` cannot report end of
input prematurely. -/
theorem inject_line_exact_tokens (pending : List (List Token)) (l : List Token)
    (buf : List Token)
    (hready : ((emit_line false [] l).getLastD endToken).token ≠ TokKind.STRING)
    (hend : emit_line false [] l = [] ∨
      ((emit_line false [] l).getLastD endToken).token ≠ TokKind.END) :
    inject_line false { pending := pending, lookahead := [] } l
      = { pending := pending, lookahead := emit_line false [] l } ∧
    (dropTrailingEnds buf = [] ∨
      ((dropTrailingEnds buf).getLastD endToken).token ≠ TokKind.END) := by
  refine ⟨?_, dropTrailingEnds_no_trailing buf⟩
  unfold inject_line
  have h1 : preprocess_line false { pending := l :: pending, lookahead := [] } 0
      = { pending := pending, lookahead := emit_line false [] l } := by
    show ({ pending := (preprocess_loop false 0 (l :: pending) []).1,
            lookahead := pad_with_end false 0 (preprocess_loop false 0 (l :: pending) []).2 } : PPState)
      = { pending := pending, lookahead := emit_line false [] l }
    rw [inject_loop_ready pending l hready, pad_zero]
  simp only [h1]
  rw [dropTrailingEnds_eq_self _ hend]

theorem inject_line_exact_tokens_witness :
    inject_line false { pending := [], lookahead := [] } [tIdent, newlineToken]
      = { pending := [], lookahead := [tIdent] } := by
  have h := inject_line_exact_tokens [] [tIdent, newlineToken] []
      (by decide) (by decide)
  rw [h.1]
  decide
